import Mathlib

/-
  Verification of the patch-indexed world map of `src/nel/map.h`
  (namespace `nel`): positions, patches, the map structure, the
  neighborhood geometry, the fixing protocol, the sampler-facing
  iteration, the query surface and the snapshot codec, shallowly
  embedded in Lean 4.

  Machine integers (`int64_t`, `unsigned int`, `uint64_t`) are modelled
  as `Int` / `Nat`: all the quantities involved stay far from the wrap
  points in the code paths modelled here (patch coordinates, sizes and
  counters), so overflow is not modelled.  The hash map
  `hash_map<position, patch>` is modelled as an association list with
  its lookup/insert semantics; `std::minstd_rand` is modelled exactly
  (multiplier 48271, modulus 2147483647, zero seeds mapped to 1).
-/

namespace Nel

/-- Model of `position` (from core/position.h, not under src/): a pair of
signed 64-bit integers.  Modelled from the spec: "pair of signed 64-bit
integers (x, y)" with unit-step operations `up`, `down`, `left`, `right`. -/
structure position where
  x : Int
  y : Int
deriving DecidableEq, Repr

/-- Modelled from the spec: `up` is a unit step along the +y axis. -/
def position.up (p : position) : position := ⟨p.x, p.y + 1⟩

/-- Modelled from the spec: `down` is a unit step along the -y axis. -/
def position.down (p : position) : position := ⟨p.x, p.y - 1⟩

/-- Modelled from the spec: `left` is a unit step along the -x axis. -/
def position.left (p : position) : position := ⟨p.x - 1, p.y⟩

/-- Modelled from the spec: `right` is a unit step along the +x axis. -/
def position.right (p : position) : position := ⟨p.x + 1, p.y⟩

/-- Model of `item` (src/nel/map.h lines 11-29): a typed point entity with
creation/deletion timestamps. -/
structure item where
  item_type : Nat
  location : position
  creation_time : Nat
  deletion_time : Nat
deriving DecidableEq, Repr

/-- Model of `patch<Data>` (src/nel/map.h lines 47-70): a bag of items, a
fixed flag, and the embedder's opaque payload (modelled as a `Nat`, since the
core only moves, stores and serializes it through a caller-supplied codec). -/
structure patch where
  items : List item
  fixed : Bool
  data : Nat
deriving DecidableEq, Repr

/-- Model of `init(patch&)` (src/nel/map.h lines 72-82): a fresh patch has
`fixed = false` and an empty item array. -/
def empty_patch : patch := ⟨[], false, 0⟩

/-- The patch index `hash_map<position, patch<PerPatchData>>`, modelled as an
association list keyed by position (lookup finds the first matching key;
insertion appends a fresh key). -/
abbrev PatchIndex := List (position × patch)

/-- Lookup in the patch index: model of `hash_map::get` keyed by structural
position equality. -/
def lookup_patch (pm : PatchIndex) (p : position) : Option patch :=
  (pm.find? (fun e => e.1 = p)).map (fun e => e.2)

/-- Model of `map::get_patch_if_exists` (src/nel/map.h lines 160-166). -/
def get_patch_if_exists (pm : PatchIndex) (p : position) : Option patch :=
  lookup_patch pm p

/-- Model of `map::get_or_make_patch` (src/nel/map.h lines 168-181): look the
position up; if absent, add a new patch initialized by `init` (empty items,
`fixed = false`).  Returns the patch found or created together with the
updated index. -/
def get_or_make_patch (pm : PatchIndex) (p : position) : patch × PatchIndex :=
  match lookup_patch pm p with
  | some pat => (pat, pm)
  | none => (empty_patch, pm ++ [(p, empty_patch)])

/-- The `fixed` flag of the patch stored at `p` (false when no patch is
stored there); used by `fix_patches` which reads `patches[i]->fixed`. -/
def patch_fixed (pm : PatchIndex) (p : position) : Bool :=
  match lookup_patch pm p with
  | some pat => pat.fixed
  | none => false

/-- Modulus of `std::minstd_rand`. -/
def minstd_m : Nat := 2147483647

/-- Model of `minstd_rand::seed` (C++ `linear_congruential_engine` with
increment 0): the state becomes the seed modulo the modulus, except that a
zero residue is replaced by 1. -/
def minstd_seed (s : Nat) : Nat :=
  if s % minstd_m = 0 then 1 else s % minstd_m

/-- Model of one draw of `std::minstd_rand`: the state is multiplied by 48271
modulo 2147483647, and the new state is the value returned by `rng()`. -/
def minstd_next (st : Nat) : Nat := (48271 * st) % minstd_m

/-- Model of the PRNG state established by the seeded constructor `map::map`
(src/nel/map.h lines 124-133).  The constructor body first runs
`rng.seed(seed)` and then, because the preprocessor branch
`#if !defined(NDEBUG)` unconditionally follows, re-seeds: with 0 in builds
without NDEBUG (modelled here), and with the wall clock `milliseconds()` in
NDEBUG builds (time-dependent, hence outside this deterministic model).  The
first `let` is the dead store the source performs. -/
def map_constructor_rng (s : Nat) : Nat :=
  let st := minstd_seed s
  let st := minstd_seed 0
  st

/-- Model of `map<PerPatchData, ItemType>` state (src/nel/map.h lines
110-122): the patch index, the patch size `n`, the number of Gibbs sweeps,
and the PRNG state.  The `gibbs_field_cache` is opaque to every claim and is
not carried. -/
structure map where
  patches : PatchIndex
  n : Nat
  gibbs_iterations : Nat
  rng : Nat
deriving DecidableEq, Repr

/-- A fresh map as produced by the seeded constructor (src/nel/map.h lines
124-133): empty index, the given `n` and `gibbs_iterations`, and the PRNG
state left by the constructor body. -/
def fresh_map (n gibbs_iterations s : Nat) : map :=
  ⟨[], n, gibbs_iterations, map_constructor_rng s⟩

/-- Model of `map::floored_div_with_remainder` (src/nel/map.h lines 377-384):
`lldiv` truncates toward zero (`Int.tdiv` / `Int.tmod`); when the dividend is
negative and the truncated remainder nonzero, the quotient is decremented and
the remainder increased by `b`. -/
def floored_div_with_remainder (a : Int) (b : Nat) : Int × Int :=
  let q := a.tdiv b
  let r := a.tmod b
  if a < 0 ∧ r ≠ 0 then (q - 1, r + b) else (q, r)

/-- Model of `map::floored_div` (src/nel/map.h lines 370-375). -/
def floored_div (a : Int) (b : Nat) : Int :=
  (floored_div_with_remainder a b).1

/-- Model of the two-output `map::world_to_patch_coordinates` (src/nel/map.h
lines 351-360): returns the patch coordinate and the position within the
patch. -/
def world_to_patch_coordinates (w : position) (n : Nat) : position × position :=
  let qx := floored_div_with_remainder w.x n
  let qy := floored_div_with_remainder w.y n
  (⟨qx.1, qy.1⟩, ⟨qx.2, qy.2⟩)

/-- Model of `map::get_neighborhood_positions` (src/nel/map.h lines 392-429):
picks the quadrant of the query inside its patch, chooses the corresponding
anchor, emits the four positions in row-major order `anchor`,
`anchor.right`, `anchor.down`, `anchor.down.right`, and returns the index of
the patch containing the query. -/
def get_neighborhood_positions (w : position) (n : Nat) : List position × Nat :=
  let pw := world_to_patch_coordinates w n
  let patch_position := pw.1
  let position_within_patch := pw.2
  let ai : position × Nat :=
    if position_within_patch.x < ((n / 2 : Nat) : Int) then
      if position_within_patch.y < ((n / 2 : Nat) : Int) then
        (patch_position.left, 1)
      else
        (patch_position.left.up, 3)
    else
      if position_within_patch.y < ((n / 2 : Nat) : Int) then
        (patch_position, 0)
      else
        (patch_position.up, 2)
  ([ai.1, ai.1.right, ai.1.down, ai.1.down.right], ai.2)

/-- Modelled from the spec: the ordering on `position` used by the core
library's `insertion_sort` (core/sort.h is not under src/); any total order
makes sort-plus-dedup correct, lexicographic by `x` then `y` is used here. -/
def pos_le (a b : position) : Prop :=
  a.x < b.x ∨ (a.x = b.x ∧ a.y ≤ b.y)

instance pos_le_decidable : DecidableRel pos_le := fun a b => by
  unfold pos_le; infer_instance

instance pos_le_total : IsTotal position pos_le := by
  constructor; intro a b; unfold pos_le; omega

instance pos_le_trans : IsTrans position pos_le := by
  constructor; intro a b c; unfold pos_le; omega

/-- Modelled from the spec: the core library's `unique` on a sorted array
keeps one representative of each run of equal adjacent elements ("sort and
deduplicate the working set"). -/
def unique_sorted : List position → List position
  | [] => []
  | [a] => [a]
  | a :: b :: rest =>
      if a = b then unique_sorted (b :: rest) else a :: unique_sorted (b :: rest)

/-- The nine-position halo added for one input patch by `fix_patches`
(src/nel/map.h lines 447-455), in the source's insertion order. -/
def halo9 (p : position) : List position :=
  [p.up.left, p.up, p.up.right, p.left, p, p.right, p.down.left, p.down, p.down.right]

/-- Model of the first loop of `fix_patches` (src/nel/map.h lines 445-458):
for each input position whose patch is not fixed, append its 9-halo to the
working set, then sort the whole set and deduplicate it. -/
def build_work_set (pm : PatchIndex) : List position → List position → List position
  | [], acc => acc
  | p :: rest, acc =>
      if patch_fixed pm p then build_work_set pm rest acc
      else build_work_set pm rest (unique_sorted (List.insertionSort pos_le (acc ++ halo9 p)))

/-- Model of the second loop of `fix_patches` (src/nel/map.h lines 460-465):
walk the working set, materializing each position with `get_or_make_patch`
and removing it from the set when the patch is already fixed.  Returns the
kept positions (handed to the Gibbs field) and the updated index. -/
def remove_fixed_loop : PatchIndex → List position → List position × PatchIndex
  | pm, [] => ([], pm)
  | pm, q :: rest =>
      let r := get_or_make_patch pm q
      if r.1.fixed then remove_fixed_loop r.2 rest
      else
        let rr := remove_fixed_loop r.2 rest
        (q :: rr.1, rr.2)

/-- The interface the core consumes from the Gibbs field (src/nel/map.h lines
468-471): given the listed positions, the current index and PRNG state, one
`field.sample(rng)` sweep yields a new index and PRNG state. -/
abbrev SampleModel := List position → PatchIndex → Nat → PatchIndex × Nat

/-- Model of the sampling loop of `fix_patches` (src/nel/map.h lines
470-471): run `sample` the configured number of times, threading index and
PRNG state. -/
def run_gibbs (sample : SampleModel) (listed : List position) :
    Nat → PatchIndex → Nat → PatchIndex × Nat
  | 0, pm, r => (pm, r)
  | g + 1, pm, r =>
      let s := sample listed pm r
      run_gibbs sample listed g s.1 s.2

/-- Model of the final loop of `fix_patches` (src/nel/map.h lines 473-474):
set the `fixed` flag of the patch stored at `p`. -/
def set_fixed_at (pm : PatchIndex) (p : position) : PatchIndex :=
  pm.map (fun e => if e.1 = p then (e.1, { e.2 with fixed := true }) else e)

/-- Model of `map::fix_patches` (src/nel/map.h lines 439-475): build the
deduplicated working set from the unfixed input patches' halos, materialize
it while dropping already-fixed positions, run the Gibbs sweeps over the kept
positions, and mark every input patch fixed. -/
def fix_patches (sample : SampleModel) (m : map) (ps : List position) : map :=
  let positions_to_sample := build_work_set m.patches ps []
  let kept := remove_fixed_loop m.patches positions_to_sample
  let sampled := run_gibbs sample kept.1 m.gibbs_iterations kept.2 m.rng
  { m with patches := ps.foldl set_fixed_at sampled.1, rng := sampled.2 }

/-- The result of `map::get_fixed_neighborhood` (src/nel/map.h lines
191-204): the updated map, the four returned patches (read back through the
returned pointers, i.e. from the final index), their positions, and the query
index. -/
structure fixed_neighborhood_result where
  state : map
  neighborhood : List patch
  patch_positions : List position
  index : Nat
deriving Repr

/-- Model of `map::get_fixed_neighborhood` (src/nel/map.h lines 191-204):
compute the four positions, create any missing patches, run `fix_patches` on
them, and return the patches with the query index. -/
def get_fixed_neighborhood (sample : SampleModel) (m : map) (w : position) :
    fixed_neighborhood_result :=
  let pi := get_neighborhood_positions w m.n
  let pm := pi.1.foldl (fun pm p => (get_or_make_patch pm p).2) m.patches
  let m1 := fix_patches sample { m with patches := pm } pi.1
  { state := m1,
    neighborhood := pi.1.map (fun p => (lookup_patch m1.patches p).getD empty_patch),
    patch_positions := pi.1,
    index := pi.2 }

/-- Model of the loop of `map::get_neighborhood` (src/nel/map.h lines
220-227): walk the four positions with counter `i`, keeping the existing
ones; when the raw query index is reached and its patch exists, remap the
query index to the compacted index (the number of patches kept so far). -/
def get_neighborhood_loop (pm : PatchIndex) :
    List position → Nat → List position → Nat → List position × Nat
  | [], _, acc, patch_index => (acc, patch_index)
  | p :: rest, i, acc, patch_index =>
      match lookup_patch pm p with
      | some _ =>
          get_neighborhood_loop pm rest (i + 1) (acc ++ [p])
            (if patch_index = i then acc.length else patch_index)
      | none => get_neighborhood_loop pm rest (i + 1) acc patch_index

/-- Model of `map::get_neighborhood` (src/nel/map.h lines 212-230): returns
the positions of the existing patches among the four (in order) and the
final value of the `patch_index` output parameter.  The returned count is the
length of the first component. -/
def get_neighborhood (m : map) (w : position) : List position × Nat :=
  let pi := get_neighborhood_positions w m.n
  get_neighborhood_loop m.patches pi.1 0 [] pi.2

/-- The inclusive integer range `[lo, hi]` as a list (empty when `hi < lo`),
modelling the patch-rectangle loops of `get_state`. -/
def int_range (lo hi : Int) : List Int :=
  (List.range (hi + 1 - lo).toNat).map (fun k => lo + (k : Int))

/-- Model of `map::get_state` (src/nel/map.h lines 294-313): visit the
existing patches whose coordinates lie in the inclusive patch-rectangle
spanned by the two corners, in x-major order; the visited
`(position, patch)` pairs are returned (the embedder callback and its early
exit do not affect the map). -/
def get_state (m : map) (bottom_left_corner top_right_corner : position) :
    List (position × patch) :=
  let blp := (world_to_patch_coordinates bottom_left_corner m.n).1
  let trp := (world_to_patch_coordinates top_right_corner m.n).1
  ((int_range blp.x trp.x).map (fun x =>
    (int_range blp.y trp.y).filterMap (fun y =>
      (lookup_patch m.patches ⟨x, y⟩).map (fun pat => (position.mk x y, pat))))).flatten

/-- Model of `map::get_items` (src/nel/map.h lines 326-340): collect, from
every patch visited by `get_state`, the items whose location lies in the
inclusive query rectangle. -/
def get_items (m : map) (bl tr : position) : List item :=
  ((get_state m bl tr).map (fun e => e.2.items.filter (fun i =>
    decide (bl.x ≤ i.location.x ∧ i.location.x ≤ tr.x ∧
            bl.y ≤ i.location.y ∧ i.location.y ≤ tr.y)))).flatten

/-- The public calls of the core, for stating properties over call
sequences.  `get_neighborhood`, `get_state` and `get_items` read the map
without mutating it (src/nel/map.h lines 212-230, 294-340);
`get_fixed_neighborhood` is the only public mutator. -/
inductive MapOp where
  | fixed_neighborhood_op (w : position)
  | neighborhood_op (w : position)
  | state_op (bl tr : position)
  | items_op (bl tr : position)

/-- The map state after one public call. -/
def run_op (sample : SampleModel) (m : map) : MapOp → map
  | .fixed_neighborhood_op w => (get_fixed_neighborhood sample m w).state
  | .neighborhood_op _ => m
  | .state_op _ _ => m
  | .items_op _ _ => m

/-- The map state after a sequence of public calls. -/
def run_ops (sample : SampleModel) (m : map) (ops : List MapOp) : map :=
  ops.foldl (run_op sample) m

/-- Modelled from the spec: gibbs_field.h is not under src/.  Per the spec
the field is constructed with the listed positions and each `sample(rng)`
locally re-samples items at those positions while consuming the PRNG; it
neither creates nor removes patches and does not touch patches outside the
listed positions.  This concrete instance advances the PRNG once per listed
position and leaves item lists unchanged (a legitimate field under that
interface, used for the concrete scenarios). -/
def gibbs_sample_model : SampleModel := fun listed pm r =>
  (pm, listed.foldl (fun acc _ => minstd_next acc) r)

/-- One sampler-callback invocation produced by `iterate_neighborhoods`:
the intra-patch cell, the quadrant whose case ran, and the positions of the
patches passed in the neighborhood array (the center patch position first,
then the existing side and diagonal neighbors of that quadrant in the
source's order, src/nel/map.h lines 245-277). -/
structure sampler_call where
  x : Nat
  y : Nat
  quadrant : Nat
  neighborhood : List position
deriving DecidableEq, Repr

/-- The neighborhood array built for one quadrant by `iterate_neighborhoods`
(src/nel/map.h lines 245-277): the center position unconditionally (the
source stores the `current` pointer even when NULL), then each neighbor of
the quadrant only if its patch exists, in the source's append order. -/
def quadrant_neighborhood (pm : PatchIndex) (p : position) (q : Nat) : List position :=
  let keep := fun pos => if (lookup_patch pm pos).isSome then [pos] else []
  match q with
  | 0 => p :: (keep p.left ++ keep p.down ++ keep p.down.left)
  | 1 => p :: (keep p.left ++ keep p.up ++ keep p.up.left)
  | 2 => p :: (keep p.right ++ keep p.down ++ keep p.down.right)
  | _ => p :: (keep p.right ++ keep p.up ++ keep p.up.right)

/-- One `case` body of the switch in `iterate_neighborhoods` (src/nel/map.h
lines 282-289): two further PRNG draws pick the cell inside the
`(n/2) x (n/2)` quadrant, offset into the chosen quadrant.  The two argument
draws are modelled left to right (the C++ argument evaluation order is
unspecified; only the number of draws matters to the claims). -/
def quadrant_call (pm : PatchIndex) (p : position) (half_n : Nat) (q : Nat)
    (st : Nat) : sampler_call × Nat :=
  let st1 := minstd_next st
  let st2 := minstd_next st1
  let xoff := if q = 2 ∨ q = 3 then half_n else 0
  let yoff := if q = 1 ∨ q = 3 then half_n else 0
  (⟨st1 % half_n + xoff, st2 % half_n + yoff, q, quadrant_neighborhood pm p q⟩, st2)

/-- One iteration of the loop in `iterate_neighborhoods` (src/nel/map.h
lines 280-291): one PRNG draw selects the switch case; the switch has no
`break`, so the cases from the selected one through case 3 all execute,
each invoking the callback once. -/
def iteration_calls (pm : PatchIndex) (p : position) (half_n : Nat)
    (st : Nat) : List sampler_call × Nat :=
  let st1 := minstd_next st
  let q0 := st1 % 4
  let step := fun (acc : List sampler_call × Nat) (q : Nat) =>
    if q0 ≤ q then
      let c := quadrant_call pm p half_n q acc.2
      (acc.1 ++ [c.1], c.2)
    else acc
  [0, 1, 2, 3].foldl step ([], st1)

/-- Model of `map::iterate_neighborhoods` (src/nel/map.h lines 232-292):
`n * n` iterations of the randomized quadrant dispatch; returns the callback
invocations of each iteration (in order) and the final PRNG state. -/
def iterate_neighborhoods (m : map) (p : position) :
    List (List sampler_call) × Nat :=
  let half_n := m.n / 2
  let loop := fun (acc : List (List sampler_call) × Nat) (_ : Nat) =>
    let it := iteration_calls m.patches p half_n acc.2
    (acc.1 ++ [it.1], it.2)
  (List.range (m.n * m.n)).foldl loop ([], m.rng)

/-- One token of the serialized byte stream.  The embedder's `Stream`
fixes widths and endianness; the codec is modelled at the granularity of the
fields the source writes: unsigned integers, signed integers, booleans, and
the length-delimited PRNG state text. -/
inductive SerTok where
  | tnat (v : Nat)
  | tint (v : Int)
  | tbool (b : Bool)
  | tbytes (s : List Nat)
deriving DecidableEq, Repr

/-- The textual streaming form of the PRNG state (`buffer << world.rng`,
src/nel/map.h lines 547-548), modelled as the decimal digit string of the
state. -/
def rng_state_text (st : Nat) : List Nat := Nat.digits 10 st

/-- Model of `write(const item&, Stream&)` (src/nel/map.h lines 39-45):
item_type, location, creation_time, deletion_time, in order. -/
def write_item (i : item) : List SerTok :=
  [SerTok.tnat i.item_type, SerTok.tint i.location.x, SerTok.tint i.location.y,
   SerTok.tnat i.creation_time, SerTok.tnat i.deletion_time]

/-- Model of `write(const patch&, Stream&, ...)` (src/nel/map.h lines
95-100): the fixed flag, the length-prefixed items array (the core array
codec, modelled from the spec: "items (length-prefixed)"), then the
caller-codec payload. -/
def write_patch (p : patch) : List SerTok :=
  SerTok.tbool p.fixed :: SerTok.tnat p.items.length ::
    ((p.items.map write_item).flatten ++ [SerTok.tnat p.data])

/-- One entry of the patch index: the position then the patch body.
Modelled from the spec: the hash_map codec (core/map.h, not under src/)
writes, for each occupied slot, the key followed by the value. -/
def write_entry (e : position × patch) : List SerTok :=
  SerTok.tint e.1.x :: SerTok.tint e.1.y :: write_patch e.2

/-- Modelled from the spec: the patch index serializes its size and then its
entries. -/
def write_patch_index (pm : PatchIndex) : List SerTok :=
  SerTok.tnat pm.length :: (pm.map write_entry).flatten

/-- Model of `write(const map&, Stream&, ...)` (src/nel/map.h lines
542-558): the PRNG state length, the PRNG state bytes, `n`,
`gibbs_iterations`, then the patch index. -/
def write_map (m : map) : List SerTok :=
  SerTok.tnat (rng_state_text m.rng).length :: SerTok.tbytes (rng_state_text m.rng) ::
    SerTok.tnat m.n :: SerTok.tnat m.gibbs_iterations :: write_patch_index m.patches

/-- Model of `read(item&, Stream&)` (src/nel/map.h lines 31-37). -/
def read_item : List SerTok → Option (item × List SerTok)
  | SerTok.tnat t :: SerTok.tint x :: SerTok.tint y ::
      SerTok.tnat ct :: SerTok.tnat dt :: rest => some (⟨t, ⟨x, y⟩, ct, dt⟩, rest)
  | _ => none

/-- Read `count` items in sequence (the element loop of the core array
codec). -/
def read_items : Nat → List SerTok → Option (List item × List SerTok)
  | 0, s => some ([], s)
  | k + 1, s =>
      match read_item s with
      | some (i, s1) =>
          match read_items k s1 with
          | some (is, s2) => some (i :: is, s2)
          | none => none
      | none => none

/-- Model of `read(patch&, Stream&, ...)` (src/nel/map.h lines 84-93). -/
def read_patch (s : List SerTok) : Option (patch × List SerTok) :=
  match s with
  | SerTok.tbool f :: SerTok.tnat len :: s1 =>
      match read_items len s1 with
      | some (is, SerTok.tnat d :: s2) => some (⟨is, f, d⟩, s2)
      | _ => none
  | _ => none

/-- Read `count` patch-index entries in sequence. -/
def read_entries : Nat → List SerTok → Option (PatchIndex × List SerTok)
  | 0, s => some ([], s)
  | k + 1, SerTok.tint x :: SerTok.tint y :: s1 =>
      match read_patch s1 with
      | some (p, s2) =>
          match read_entries k s2 with
          | some (es, s3) => some ((⟨x, y⟩, p) :: es, s3)
          | none => none
      | none => none
  | _ + 1, _ => none

/-- Modelled from the spec: the patch index codec reads the size then the
entries. -/
def read_patch_index (s : List SerTok) : Option (PatchIndex × List SerTok) :=
  match s with
  | SerTok.tnat len :: s1 => read_entries len s1
  | _ => none

/-- Model of `read(map&, Stream&, ...)` (src/nel/map.h lines 514-539): read
the PRNG state length and exactly that many state bytes, parse the state
from its textual form, then read `n`, `gibbs_iterations` and the patch
index. -/
def read_map (s : List SerTok) : Option (map × List SerTok) :=
  match s with
  | SerTok.tnat len :: SerTok.tbytes txt :: SerTok.tnat n ::
      SerTok.tnat g :: s1 =>
      if txt.length = len then
        match read_patch_index s1 with
        | some (pm, s2) => some (⟨pm, n, g, Nat.ofDigits 10 txt⟩, s2)
        | none => none
      else none
  | _ => none

/-! Theorems. -/

/-- The truncated remainder of a negative dividend is nonpositive. -/
lemma tmod_nonpos_of_neg (a : Int) (b : Nat) (ha : a < 0) : a.tmod b ≤ 0 := by
  cases a with
  | ofNat m => exact absurd ha (not_lt.mpr (Int.ofNat_nonneg m))
  | negSucc m =>
      have h : (Int.negSucc m).tmod (Int.ofNat b) = -(Int.ofNat ((m + 1) % b)) := rfl
      rw [show ((b : Int)) = Int.ofNat b from rfl, h]
      simp only [Int.ofNat_eq_natCast]
      omega

/-- The truncated remainder of a negative dividend exceeds the negated
divisor. -/
lemma neg_lt_tmod_of_neg (a : Int) (b : Nat) (hb : 0 < b) (ha : a < 0) :
    -(b : Int) < a.tmod b := by
  cases a with
  | ofNat m => exact absurd ha (not_lt.mpr (Int.ofNat_nonneg m))
  | negSucc m =>
      have h : (Int.negSucc m).tmod (Int.ofNat b) = -(Int.ofNat ((m + 1) % b)) := rfl
      rw [show ((b : Int)) = Int.ofNat b from rfl, h]
      have h2 := Nat.mod_lt (m + 1) hb
      simp only [Int.ofNat_eq_natCast]
      omega

/-- Specification of `floored_div_with_remainder`: for a positive divisor the
remainder lies in `[0, b)` and quotient times divisor plus remainder is the
dividend. -/
lemma floored_div_with_remainder_spec (a : Int) (b : Nat) (hb : 1 ≤ b) :
    0 ≤ (floored_div_with_remainder a b).2 ∧
    (floored_div_with_remainder a b).2 < (b : Int) ∧
    (floored_div_with_remainder a b).1 * b + (floored_div_with_remainder a b).2 = a := by
  have hbz : (0 : Int) < (b : Int) := by exact_mod_cast hb
  have hid : (b : Int) * a.tdiv b + a.tmod b = a := Int.tdiv_add_tmod a b
  unfold floored_div_with_remainder
  by_cases h : a < 0 ∧ a.tmod b ≠ 0
  · rw [if_pos h]
    have h1 : a.tmod b ≤ 0 := tmod_nonpos_of_neg a b h.1
    have h2 : -(b : Int) < a.tmod b := neg_lt_tmod_of_neg a b (by omega) h.1
    refine ⟨by omega, by omega, by linear_combination hid⟩
  · rw [if_neg h]
    rcases not_and_or.mp h with h1 | h1
    · have ha : 0 ≤ a := by omega
      exact ⟨Int.tmod_nonneg _ ha, Int.tmod_lt_of_pos a hbz, by linear_combination hid⟩
    · have h0 : a.tmod b = 0 := by simpa using h1
      exact ⟨by omega, by omega, by linear_combination hid⟩

/-- The round-trip property of `world_to_patch_coordinates`: the within-patch
coordinates lie in `[0, n)` on both axes and patch coordinate times `n` plus
within-patch coordinate recovers the world coordinate. -/
def roundtrip_ok (w : position) (n : Nat) : Prop :=
  0 ≤ (world_to_patch_coordinates w n).2.x ∧
  (world_to_patch_coordinates w n).2.x < (n : Int) ∧
  0 ≤ (world_to_patch_coordinates w n).2.y ∧
  (world_to_patch_coordinates w n).2.y < (n : Int) ∧
  (world_to_patch_coordinates w n).1.x * n + (world_to_patch_coordinates w n).2.x = w.x ∧
  (world_to_patch_coordinates w n).1.y * n + (world_to_patch_coordinates w n).2.y = w.y

/-- C3: for every world position and every patch size `n >= 1`,
`world_to_patch_coordinates` returns within-patch coordinates in `[0, n)` on
both axes with patch coordinate times `n` plus within-patch coordinate equal
to the world coordinate; the floored division is realized by decrementing the
truncated quotient and increasing the remainder by `n` exactly when the
truncated remainder is nonzero and the coordinate negative (the definition of
`floored_div_with_remainder`). -/
theorem world_to_patch_roundtrip (w : position) (n : Nat) (hn : 1 ≤ n) :
    roundtrip_ok w n := by
  have hx := floored_div_with_remainder_spec w.x n hn
  have hy := floored_div_with_remainder_spec w.y n hn
  unfold roundtrip_ok world_to_patch_coordinates
  exact ⟨hx.1, hx.2.1, hy.1, hy.2.1, hx.2.2, hy.2.2⟩

/-- Witness for C3 at the negative-coordinate input `w = (-1, -1)`, `n = 8`:
the hypothesis `1 ≤ 8` holds, the round-trip property holds, and concretely
the patch is `(-1, -1)` with within-patch coordinates `(7, 7)`. -/
theorem world_to_patch_roundtrip_witness :
    1 ≤ 8 ∧ roundtrip_ok ⟨-1, -1⟩ 8 ∧
    world_to_patch_coordinates ⟨-1, -1⟩ 8 = (⟨-1, -1⟩, ⟨7, 7⟩) :=
  ⟨by decide, world_to_patch_roundtrip ⟨-1, -1⟩ 8 (by decide), by decide⟩

/-- Membership of a lattice cell in the tile region
`[x*n, (x+1)*n) x [y*n, (y+1)*n)` of the patch at coordinate `p`. -/
def in_tile (n : Nat) (p : position) (u : position) : Prop :=
  p.x * n ≤ u.x ∧ u.x < (p.x + 1) * n ∧ p.y * n ≤ u.y ∧ u.y < (p.y + 1) * n

instance in_tile_decidable (n : Nat) (p u : position) : Decidable (in_tile n p u) := by
  unfold in_tile; infer_instance

/-- Any cell of the `2n x 2n` region of the row-major 2x2 block below an
anchor lies in the tile of one of the four block positions. -/
lemma cover_of_anchor (a : position) (n : Nat) (u : position)
    (hx1 : a.x * n ≤ u.x) (hx2 : u.x < a.x * n + 2 * n)
    (hy1 : (a.y - 1) * n ≤ u.y) (hy2 : u.y < (a.y - 1) * n + 2 * n) :
    ∃ p ∈ [a, a.right, a.down, a.down.right], in_tile n p u := by
  by_cases hx : u.x < a.x * n + n <;> by_cases hy : a.y * n ≤ u.y
  · refine ⟨a, by simp, ?_, ?_, ?_, ?_⟩ <;> linarith
  · refine ⟨a.down, by simp, ?_, ?_, ?_, ?_⟩ <;>
      simp only [position.right, position.down] <;> linarith
  · refine ⟨a.right, by simp, ?_, ?_, ?_, ?_⟩ <;>
      simp only [position.right, position.down] <;> linarith
  · refine ⟨a.down.right, by simp, ?_, ?_, ?_, ?_⟩ <;>
      simp only [position.right, position.down] <;> linarith

/-- In the bottom-left-quadrant case the four positions are anchored at
`patch.left()`. -/
lemma gnp_eq_bl (w : position) (n : Nat)
    (hqx : (world_to_patch_coordinates w n).2.x < ((n / 2 : Nat) : Int))
    (hqy : (world_to_patch_coordinates w n).2.y < ((n / 2 : Nat) : Int)) :
    get_neighborhood_positions w n =
      ([(world_to_patch_coordinates w n).1.left,
        (world_to_patch_coordinates w n).1.left.right,
        (world_to_patch_coordinates w n).1.left.down,
        (world_to_patch_coordinates w n).1.left.down.right], 1) := by
  unfold get_neighborhood_positions
  simp only [if_pos hqx, if_pos hqy]

/-- In the top-left-quadrant case the four positions are anchored at
`patch.left().up()`. -/
lemma gnp_eq_tl (w : position) (n : Nat)
    (hqx : (world_to_patch_coordinates w n).2.x < ((n / 2 : Nat) : Int))
    (hqy : ¬ (world_to_patch_coordinates w n).2.y < ((n / 2 : Nat) : Int)) :
    get_neighborhood_positions w n =
      ([(world_to_patch_coordinates w n).1.left.up,
        (world_to_patch_coordinates w n).1.left.up.right,
        (world_to_patch_coordinates w n).1.left.up.down,
        (world_to_patch_coordinates w n).1.left.up.down.right], 3) := by
  unfold get_neighborhood_positions
  simp only [if_pos hqx, if_neg hqy]

/-- In the bottom-right-quadrant case the four positions are anchored at the
patch itself. -/
lemma gnp_eq_br (w : position) (n : Nat)
    (hqx : ¬ (world_to_patch_coordinates w n).2.x < ((n / 2 : Nat) : Int))
    (hqy : (world_to_patch_coordinates w n).2.y < ((n / 2 : Nat) : Int)) :
    get_neighborhood_positions w n =
      ([(world_to_patch_coordinates w n).1,
        (world_to_patch_coordinates w n).1.right,
        (world_to_patch_coordinates w n).1.down,
        (world_to_patch_coordinates w n).1.down.right], 0) := by
  unfold get_neighborhood_positions
  simp only [if_neg hqx, if_pos hqy]

/-- In the top-right-quadrant case the four positions are anchored at
`patch.up()`. -/
lemma gnp_eq_tr (w : position) (n : Nat)
    (hqx : ¬ (world_to_patch_coordinates w n).2.x < ((n / 2 : Nat) : Int))
    (hqy : ¬ (world_to_patch_coordinates w n).2.y < ((n / 2 : Nat) : Int)) :
    get_neighborhood_positions w n =
      ([(world_to_patch_coordinates w n).1.up,
        (world_to_patch_coordinates w n).1.up.right,
        (world_to_patch_coordinates w n).1.up.down,
        (world_to_patch_coordinates w n).1.up.down.right], 2) := by
  unfold get_neighborhood_positions
  simp only [if_neg hqx, if_neg hqy]

/-- C5: for every world position `w`, patch size `n >= 1` and cell `u` of the
axis-aligned box of half-width `n / 2` centered at `w` (which contains every
`n x n` box centered at `w`), some position of the four returned by
`get_neighborhood_positions` has `u` in its tile, wherever `w` sits within
its patch. -/
theorem window_coverage (w : position) (n : Nat) (u : position) (hn : 1 ≤ n)
    (hux1 : w.x - ((n / 2 : Nat) : Int) ≤ u.x)
    (hux2 : u.x ≤ w.x + ((n / 2 : Nat) : Int))
    (huy1 : w.y - ((n / 2 : Nat) : Int) ≤ u.y)
    (huy2 : u.y ≤ w.y + ((n / 2 : Nat) : Int)) :
    ∃ p ∈ (get_neighborhood_positions w n).1, in_tile n p u := by
  have hxid : (world_to_patch_coordinates w n).1.x * n +
      (world_to_patch_coordinates w n).2.x = w.x :=
    (floored_div_with_remainder_spec w.x n hn).2.2
  have hyid : (world_to_patch_coordinates w n).1.y * n +
      (world_to_patch_coordinates w n).2.y = w.y :=
    (floored_div_with_remainder_spec w.y n hn).2.2
  have hx0 : 0 ≤ (world_to_patch_coordinates w n).2.x :=
    (floored_div_with_remainder_spec w.x n hn).1
  have hxn : (world_to_patch_coordinates w n).2.x < (n : Int) :=
    (floored_div_with_remainder_spec w.x n hn).2.1
  have hy0 : 0 ≤ (world_to_patch_coordinates w n).2.y :=
    (floored_div_with_remainder_spec w.y n hn).1
  have hyn : (world_to_patch_coordinates w n).2.y < (n : Int) :=
    (floored_div_with_remainder_spec w.y n hn).2.1
  have hk2 : ((n / 2 : Nat) : Int) ≤ (n : Int) := by
    exact_mod_cast Nat.div_le_self n 2
  have hk3 : 2 * ((n / 2 : Nat) : Int) ≤ (n : Int) := by
    exact_mod_cast (by omega : 2 * (n / 2) ≤ n)
  set P := (world_to_patch_coordinates w n).1 with hP
  set W := (world_to_patch_coordinates w n).2 with hW
  by_cases hqx : W.x < ((n / 2 : Nat) : Int) <;>
    by_cases hqy : W.y < ((n / 2 : Nat) : Int)
  · rw [gnp_eq_bl w n hqx hqy]
    exact cover_of_anchor P.left n u
      (by simp only [position.left]; linarith)
      (by simp only [position.left]; linarith)
      (by simp only [position.left]; linarith)
      (by simp only [position.left]; linarith)
  · rw [gnp_eq_tl w n hqx hqy]
    exact cover_of_anchor P.left.up n u
      (by simp only [position.left, position.up]; linarith)
      (by simp only [position.left, position.up]; linarith)
      (by simp only [position.left, position.up]; linarith)
      (by simp only [position.left, position.up]; linarith)
  · rw [gnp_eq_br w n hqx hqy]
    exact cover_of_anchor P n u
      (by linarith) (by linarith) (by linarith) (by linarith)
  · rw [gnp_eq_tr w n hqx hqy]
    exact cover_of_anchor P.up n u
      (by simp only [position.up]; linarith)
      (by simp only [position.up]; linarith)
      (by simp only [position.up]; linarith)
      (by simp only [position.up]; linarith)

/-- Witness for C5 at `w = (0, 0)`, `n = 8`, `u = (4, 4)`. -/
theorem window_coverage_witness :
    (1 ≤ 8 ∧
     (position.mk 0 0).x - ((8 / 2 : Nat) : Int) ≤ (position.mk 4 4).x ∧
     (position.mk 4 4).x ≤ (position.mk 0 0).x + ((8 / 2 : Nat) : Int) ∧
     (position.mk 0 0).y - ((8 / 2 : Nat) : Int) ≤ (position.mk 4 4).y ∧
     (position.mk 4 4).y ≤ (position.mk 0 0).y + ((8 / 2 : Nat) : Int)) ∧
    ∃ p ∈ (get_neighborhood_positions ⟨0, 0⟩ 8).1, in_tile 8 p ⟨4, 4⟩ :=
  ⟨⟨by decide, by decide, by decide, by decide, by decide⟩,
   window_coverage ⟨0, 0⟩ 8 ⟨4, 4⟩ (by decide) (by decide) (by decide)
     (by decide) (by decide)⟩

/-- C1: the claim says that immediately after construction with seed `s` the
map's PRNG state is the state determined by `s`.  The constructor
(src/nel/map.h lines 124-133) overwrites the requested seed: after
`rng.seed(seed)` it unconditionally re-seeds with 0 (builds without NDEBUG)
or with the wall clock (NDEBUG builds), so at seed 42 the post-construction
state is `minstd_seed 0 = 1`, not `minstd_seed 42 = 42`. -/
theorem constructor_overwrites_seed :
    map_constructor_rng 42 = minstd_seed 0 ∧ map_constructor_rng 42 ≠ minstd_seed 42 := by
  exact ⟨by decide, by decide⟩

/-- C4: the claim says every iteration of `iterate_neighborhoods` invokes the
sampler callback exactly once.  The switch on `rng() % 4` (src/nel/map.h
lines 281-290) has no `break`: with `n = 2` and PRNG state 4 the first draw
is 193084 ≡ 0 (mod 4) and the callback is invoked four times in the first
iteration; the per-iteration invocation counts of the four iterations are
[4, 2, 2, 1], not [1, 1, 1, 1]. -/
theorem iterate_neighborhoods_fallthrough :
    (iterate_neighborhoods ⟨[], 2, 10, 4⟩ ⟨0, 0⟩).1.map List.length = [4, 2, 2, 1] ∧
    ¬ (iterate_neighborhoods ⟨[], 2, 10, 4⟩ ⟨0, 0⟩).1.map List.length = List.replicate 4 1 := by
  exact ⟨by decide, by decide⟩

/-- C6 counterexample: the claim says `get_fixed_neighborhood((7, 7))` on a
fresh map with `n = 8` returns anchor `(0, 0)` and query index 0.  The code
places `(7, 7)` (within-patch `(7, 7)`, top-right quadrant) at anchor
`patch.up() = (0, 1)` with query index 2. -/
theorem s2_scenario_counterexample :
    ¬ ((get_fixed_neighborhood gibbs_sample_model (fresh_map 8 10 42) ⟨7, 7⟩).index = 0 ∧
       (get_fixed_neighborhood gibbs_sample_model (fresh_map 8 10 42) ⟨7, 7⟩).patch_positions.head?
         = some ⟨0, 0⟩) := by
  decide

/-- C6 amended: with `n = 8`, on a fresh map, `get_fixed_neighborhood((7, 7))`
returns the patch positions `(0, 1)`, `(1, 1)`, `(0, 0)`, `(1, 0)` in
row-major order from anchor `(0, 1)` and query index 2; `(7, 7)` has
within-patch coordinates `(7, 7)`, the top-right quadrant of patch
`(0, 0)`. -/
theorem s2_scenario_amended :
    (get_fixed_neighborhood gibbs_sample_model (fresh_map 8 10 42) ⟨7, 7⟩).patch_positions
      = [⟨0, 1⟩, ⟨1, 1⟩, ⟨0, 0⟩, ⟨1, 0⟩] ∧
    (get_fixed_neighborhood gibbs_sample_model (fresh_map 8 10 42) ⟨7, 7⟩).index = 2 ∧
    world_to_patch_coordinates ⟨7, 7⟩ 8 = (⟨0, 0⟩, ⟨7, 7⟩) := by
  exact ⟨by decide, by decide, by decide⟩

/-- C7 counterexample: the claim says that after S1
(`get_fixed_neighborhood((0, 0))` on a fresh map with `n = 8`) exactly 5
patches outside the returned 2x2 block exist.  The call materializes the
full 4x4 halo-closure of the block (16 patches), so 12 patches outside the
block `{(-1, 0), (0, 0), (-1, -1), (0, -1)}` exist, not 5. -/
theorem s4_scenario_counterexample :
    ¬ ((get_fixed_neighborhood gibbs_sample_model (fresh_map 8 10 42) ⟨0, 0⟩).state.patches.filter
        (fun e => decide (e.1 ∉ [(⟨-1, 0⟩ : position), ⟨0, 0⟩, ⟨-1, -1⟩, ⟨0, -1⟩]))).length = 5 := by
  decide

/-- C7 amended: after S1, the four returned patches are `fixed = true`, and
exactly 12 halo patches outside the returned 2x2 block exist, each with
`fixed = false`. -/
theorem s4_scenario_amended :
    (∀ pat ∈ (get_fixed_neighborhood gibbs_sample_model (fresh_map 8 10 42) ⟨0, 0⟩).neighborhood,
        pat.fixed = true) ∧
    ((get_fixed_neighborhood gibbs_sample_model (fresh_map 8 10 42) ⟨0, 0⟩).state.patches.filter
        (fun e => decide (e.1 ∉ [(⟨-1, 0⟩ : position), ⟨0, 0⟩, ⟨-1, -1⟩, ⟨0, -1⟩]))).length = 12 ∧
    (∀ e ∈ (get_fixed_neighborhood gibbs_sample_model (fresh_map 8 10 42) ⟨0, 0⟩).state.patches,
        e.1 ∉ [(⟨-1, 0⟩ : position), ⟨0, 0⟩, ⟨-1, -1⟩, ⟨0, -1⟩] → e.2.fixed = false) := by
  exact ⟨by decide, by decide, by decide⟩

/-- Stepping left then right returns to the same position. -/
lemma pos_left_right (p : position) : p.left.right = p := by
  cases p
  simp [position.left, position.right]

/-- Stepping up then down returns to the same position. -/
lemma pos_up_down (p : position) : p.up.down = p := by
  cases p
  simp [position.up, position.down]

/-- The position stored at the returned query index of
`get_neighborhood_positions` is the patch containing the query. -/
lemma gnp_get_index (w : position) (n : Nat) :
    (get_neighborhood_positions w n).1[(get_neighborhood_positions w n).2]? =
      some (world_to_patch_coordinates w n).1 := by
  by_cases hqx : (world_to_patch_coordinates w n).2.x < ((n / 2 : Nat) : Int) <;>
    by_cases hqy : (world_to_patch_coordinates w n).2.y < ((n / 2 : Nat) : Int)
  · rw [gnp_eq_bl w n hqx hqy]
    show some ((world_to_patch_coordinates w n).1.left.right) = _
    rw [pos_left_right]
  · rw [gnp_eq_tl w n hqx hqy]
    show some ((world_to_patch_coordinates w n).1.left.up.down.right) = _
    rw [pos_up_down, pos_left_right]
  · rw [gnp_eq_br w n hqx hqy]
    rfl
  · rw [gnp_eq_tr w n hqx hqy]
    show some ((world_to_patch_coordinates w n).1.up.down) = _
    rw [pos_up_down]

/-- If no position at absolute index `pidx` (relative to the running counter
`i`) has an existing patch, the loop of `get_neighborhood` never remaps
`patch_index`. -/
lemma gn_loop_pidx_of_missing (pm : PatchIndex) :
    ∀ (l : List position) (i : Nat) (acc : List position) (pidx : Nat),
      (∀ j p, l[j]? = some p → i + j = pidx → lookup_patch pm p = none) →
      (get_neighborhood_loop pm l i acc pidx).2 = pidx := by
  intro l
  induction l with
  | nil => intro i acc pidx h; rfl
  | cons p rest ih =>
      intro i acc pidx h
      simp only [get_neighborhood_loop]
      cases hc : lookup_patch pm p with
      | none =>
          exact ih (i + 1) acc pidx
            (fun j q hj hij => h (j + 1) q (by simpa using hj) (by omega))
      | some pat =>
          have hne : pidx ≠ i := by
            intro he
            have hnone : lookup_patch pm p = none := h 0 p (by simp) (by omega)
            simp [hnone] at hc
          simp only [if_neg hne]
          exact ih (i + 1) (acc ++ [p]) pidx
            (fun j q hj hij => h (j + 1) q (by simpa using hj) (by omega))

/-- C10: when the patch containing the query does not exist,
`get_neighborhood` leaves the `patch_index` output at the raw quadrant index
computed by `get_neighborhood_positions` (which may equal or exceed the
returned count and refers to no returned patch). -/
theorem get_neighborhood_missing_keeps_raw_index (m : map) (w : position)
    (h : lookup_patch m.patches (world_to_patch_coordinates w m.n).1 = none) :
    (get_neighborhood m w).2 = (get_neighborhood_positions w m.n).2 := by
  unfold get_neighborhood
  apply gn_loop_pidx_of_missing
  intro j p hj hij
  have hj2 : j = (get_neighborhood_positions w m.n).2 := by omega
  rw [hj2, gnp_get_index w m.n] at hj
  injection hj with he
  exact he ▸ h

/-- Witness for C10 on the empty map with `n = 8` at `w = (0, 0)`: the
containing patch `(0, 0)` is absent, the returned `patch_index` is the raw
quadrant index 1, and the returned count is 0 (so `patch_index ≥ count`). -/
theorem get_neighborhood_missing_witness :
    lookup_patch (fresh_map 8 10 42).patches (world_to_patch_coordinates ⟨0, 0⟩ 8).1 = none ∧
    (get_neighborhood (fresh_map 8 10 42) ⟨0, 0⟩).2 = (get_neighborhood_positions ⟨0, 0⟩ 8).2 ∧
    (get_neighborhood (fresh_map 8 10 42) ⟨0, 0⟩).1.length = 0 ∧
    (get_neighborhood_positions ⟨0, 0⟩ 8).2 = 1 :=
  ⟨by decide,
   get_neighborhood_missing_keeps_raw_index (fresh_map 8 10 42) ⟨0, 0⟩ (by decide),
   by decide, by decide⟩

/-- The lexicographic order on positions is antisymmetric. -/
lemma pos_le_antisymm (a b : position) (h1 : pos_le a b) (h2 : pos_le b a) :
    a = b := by
  cases a; cases b
  unfold pos_le at h1 h2
  simp only [position.mk.injEq]
  simp only at h1 h2
  omega

/-- Every element of `unique_sorted l` is an element of `l`. -/
lemma mem_unique_sorted : ∀ (l : List position) (x : position),
    x ∈ unique_sorted l → x ∈ l := by
  intro l
  induction l with
  | nil => intro x h; simpa [unique_sorted] using h
  | cons a t ih =>
      cases t with
      | nil => intro x h; simpa [unique_sorted] using h
      | cons b rest =>
          intro x h
          unfold unique_sorted at h
          by_cases hab : a = b
          · rw [if_pos hab] at h
            exact List.mem_cons_of_mem a (ih x h)
          · rw [if_neg hab] at h
            rcases List.mem_cons.mp h with he | hin
            · exact he ▸ List.mem_cons_self a _
            · exact List.mem_cons_of_mem a (ih x hin)

/-- On a list sorted by the (total, antisymmetric) position order,
`unique_sorted` removes every duplicate. -/
lemma unique_sorted_nodup : ∀ l : List position,
    l.Sorted pos_le → (unique_sorted l).Nodup := by
  intro l
  induction l with
  | nil => intro h; simp [unique_sorted]
  | cons a t ih =>
      cases t with
      | nil => intro h; simp [unique_sorted]
      | cons b rest =>
          intro hs
          rcases List.sorted_cons.mp hs with ⟨hall, hs'⟩
          unfold unique_sorted
          by_cases hab : a = b
          · rw [if_pos hab]; exact ih hs'
          · rw [if_neg hab]
            refine List.nodup_cons.mpr ⟨?_, ih hs'⟩
            intro hmem
            rcases List.mem_cons.mp (mem_unique_sorted _ _ hmem) with he | hin
            · exact hab he
            · rcases List.sorted_cons.mp hs' with ⟨hball, _⟩
              exact hab (pos_le_antisymm a b
                (hall b (List.mem_cons_self b rest)) (hball a hin))

/-- The working set built by the first loop of `fix_patches` has no
duplicate positions (each batch is followed by sort plus dedup). -/
lemma build_work_set_nodup (pm : PatchIndex) :
    ∀ (l acc : List position), acc.Nodup → (build_work_set pm l acc).Nodup := by
  intro l
  induction l with
  | nil => intro acc h; exact h
  | cons p rest ih =>
      intro acc h
      unfold build_work_set
      by_cases hf : patch_fixed pm p = true
      · rw [if_pos hf]; exact ih acc h
      · rw [if_neg hf]
        exact ih _ (unique_sorted_nodup _ (List.sorted_insertionSort pos_le _))

/-- The positions kept by the removal walk form a sublist of the input. -/
lemma remove_fixed_loop_sublist :
    ∀ (pm : PatchIndex) (l : List position), (remove_fixed_loop pm l).1.Sublist l := by
  intro pm l
  induction l generalizing pm with
  | nil => simp [remove_fixed_loop]
  | cons q rest ih =>
      unfold remove_fixed_loop
      by_cases hf : (get_or_make_patch pm q).1.fixed = true
      · rw [if_pos hf]
        exact (ih _).trans (List.sublist_cons_self q rest)
      · rw [if_neg hf]
        exact (ih _).cons₂ q

/-- C8: in every call to `fix_patches`, for every prior index state and
every combination of input positions, the vector of positions handed to the
Gibbs field constructor (the working set after the fixed-removal walk)
contains no duplicate positions. -/
theorem fix_patches_work_set_nodup (m : map) (ps : List position) :
    (remove_fixed_loop m.patches (build_work_set m.patches ps [])).1.Nodup :=
  (remove_fixed_loop_sublist m.patches _).nodup
    (build_work_set_nodup m.patches ps [] List.nodup_nil)

/-- Reading back a written item consumes exactly its tokens. -/
lemma read_write_item (i : item) (r : List SerTok) :
    read_item (write_item i ++ r) = some (i, r) := rfl

/-- Reading back a written item list consumes exactly its tokens. -/
lemma read_write_items : ∀ (l : List item) (r : List SerTok),
    read_items l.length ((l.map write_item).flatten ++ r) = some (l, r) := by
  intro l
  induction l with
  | nil => intro r; rfl
  | cons i t ih =>
      intro r
      simp only [List.map_cons, List.flatten_cons, List.length_cons, List.append_assoc,
        read_items, read_write_item, ih]

/-- Reading back a written patch consumes exactly its tokens. -/
lemma read_write_patch (p : patch) (r : List SerTok) :
    read_patch (write_patch p ++ r) = some (p, r) := by
  unfold write_patch read_patch
  simp only [List.cons_append, List.append_assoc, List.singleton_append,
    List.nil_append]
  rw [read_write_items p.items (SerTok.tnat p.data :: r)]

/-- Reading back a written patch-index entry list consumes exactly its
tokens. -/
lemma read_write_entries : ∀ (pm : PatchIndex) (r : List SerTok),
    read_entries pm.length ((pm.map write_entry).flatten ++ r) = some (pm, r) := by
  intro pm
  induction pm with
  | nil => intro r; rfl
  | cons e t ih =>
      intro r
      simp only [List.map_cons, List.flatten_cons, List.length_cons, List.append_assoc]
      show read_entries (t.length + 1)
        (SerTok.tint e.1.x :: SerTok.tint e.1.y ::
          (write_patch e.2 ++ ((t.map write_entry).flatten ++ r))) = _
      simp only [read_entries, read_write_patch, ih]

/-- C9: serialize-then-deserialize is the identity on the map state (`n`,
`gibbs_iterations`, PRNG state, and the patches with their positions, fixed
flags and items), and the serialized layout is PRNG state length, PRNG state
bytes, `n`, `gibbs_iterations`, then the patch index, in that order. -/
theorem snapshot_roundtrip (m : map) :
    read_map (write_map m) = some (m, []) ∧
    write_map m = SerTok.tnat (rng_state_text m.rng).length ::
      SerTok.tbytes (rng_state_text m.rng) :: SerTok.tnat m.n ::
      SerTok.tnat m.gibbs_iterations :: write_patch_index m.patches := by
  constructor
  · have hred : read_map (write_map m) =
        (if (rng_state_text m.rng).length = (rng_state_text m.rng).length then
          match read_patch_index (write_patch_index m.patches) with
          | some (pm, s2) =>
              some ((⟨pm, m.n, m.gibbs_iterations,
                Nat.ofDigits 10 (rng_state_text m.rng)⟩ : map), s2)
          | none => none
        else none) := rfl
    have hidx : read_patch_index (write_patch_index m.patches) =
        some (m.patches, []) := by
      unfold write_patch_index read_patch_index
      have h := read_write_entries m.patches []
      rw [List.append_nil] at h
      exact h
    rw [hred, if_pos rfl, hidx]
    unfold rng_state_text
    rw [Nat.ofDigits_digits]
  · rfl

/-- The function `get_or_make_patch` never disturbs an existing entry. -/
lemma lookup_get_or_make (pm : PatchIndex) (p q : position) (pat : patch)
    (h : lookup_patch pm q = some pat) :
    lookup_patch (get_or_make_patch pm p).2 q = some pat := by
  unfold get_or_make_patch
  cases hc : lookup_patch pm p with
  | some pat2 => exact h
  | none =>
      unfold lookup_patch at h ⊢
      rw [List.find?_append]
      cases hfind : List.find? (fun e => decide (e.1 = q)) pm with
      | none => rw [hfind] at h; simp at h
      | some e => rw [hfind] at h; simpa using h

/-- The creation fold of `get_fixed_neighborhood` never disturbs an existing
entry. -/
lemma lookup_foldl_get_or_make (ps : List position) (pm : PatchIndex)
    (q : position) (pat : patch) (h : lookup_patch pm q = some pat) :
    lookup_patch (ps.foldl (fun pm p => (get_or_make_patch pm p).2) pm) q = some pat := by
  induction ps generalizing pm with
  | nil => exact h
  | cons p rest ih => exact ih _ (lookup_get_or_make pm p q pat h)

/-- The removal walk of `fix_patches` never disturbs an existing entry. -/
lemma remove_fixed_loop_preserves (l : List position) (pm : PatchIndex)
    (q : position) (pat : patch) (h : lookup_patch pm q = some pat) :
    lookup_patch (remove_fixed_loop pm l).2 q = some pat := by
  induction l generalizing pm with
  | nil => exact h
  | cons p rest ih =>
      unfold remove_fixed_loop
      by_cases hf : (get_or_make_patch pm p).1.fixed = true
      · rw [if_pos hf]; exact ih _ (lookup_get_or_make pm p q pat h)
      · rw [if_neg hf]; exact ih _ (lookup_get_or_make pm p q pat h)

/-- A position whose patch is already fixed is dropped by the removal walk of
`fix_patches`: it is never handed to the Gibbs field. -/
lemma remove_fixed_loop_not_mem (l : List position) (pm : PatchIndex)
    (q : position) (pat : patch) (h : lookup_patch pm q = some pat)
    (hf : pat.fixed = true) : q ∉ (remove_fixed_loop pm l).1 := by
  induction l generalizing pm with
  | nil => simp [remove_fixed_loop]
  | cons p rest ih =>
      unfold remove_fixed_loop
      by_cases hp : p = q
      · have hq : (get_or_make_patch pm p).1 = pat := by
          unfold get_or_make_patch
          rw [hp, h]
        rw [if_pos (by rw [hq]; exact hf)]
        exact ih _ (lookup_get_or_make pm p q pat h)
      · by_cases hgf : (get_or_make_patch pm p).1.fixed = true
        · rw [if_pos hgf]
          exact ih _ (lookup_get_or_make pm p q pat h)
        · rw [if_neg hgf]
          intro hmem
          rcases List.mem_cons.mp hmem with he | hin
          · exact hp he.symm
          · exact ih _ (lookup_get_or_make pm p q pat h) hin

/-- A Gibbs run that touches only the listed positions leaves every other
entry unchanged. -/
lemma run_gibbs_local (sample : SampleModel)
    (hloc : ∀ listed pm r q, q ∉ listed →
      lookup_patch (sample listed pm r).1 q = lookup_patch pm q)
    (listed : List position) (g : Nat) (pm : PatchIndex) (r : Nat)
    (q : position) (hq : q ∉ listed) :
    lookup_patch (run_gibbs sample listed g pm r).1 q = lookup_patch pm q := by
  induction g generalizing pm r with
  | zero => rfl
  | succ g ih =>
      unfold run_gibbs
      rw [ih _ _, hloc listed pm r q hq]

/-- A Gibbs run that preserves key presence preserves it over every sweep. -/
lemma run_gibbs_keys (sample : SampleModel)
    (hkeys : ∀ listed pm r q,
      (lookup_patch (sample listed pm r).1 q).isSome = (lookup_patch pm q).isSome)
    (listed : List position) (g : Nat) (pm : PatchIndex) (r : Nat)
    (q : position) :
    (lookup_patch (run_gibbs sample listed g pm r).1 q).isSome =
      (lookup_patch pm q).isSome := by
  induction g generalizing pm r with
  | zero => rfl
  | succ g ih =>
      unfold run_gibbs
      rw [ih _ _, hkeys listed pm r q]

/-- Lookup through `set_fixed_at`: the entry at the targeted position gets
its `fixed` flag set; every other entry is unchanged. -/
lemma lookup_set_fixed (pm : PatchIndex) (p q : position) :
    lookup_patch (set_fixed_at pm p) q =
      if q = p then (lookup_patch pm q).map (fun pat => { pat with fixed := true })
      else lookup_patch pm q := by
  unfold set_fixed_at lookup_patch
  rw [List.find?_map]
  have hpred : ((fun (e : position × patch) => decide (e.1 = q)) ∘
      (fun e => if e.1 = p then (e.1, { e.2 with fixed := true }) else e)) =
      (fun (e : position × patch) => decide (e.1 = q)) := by
    funext e
    by_cases he : e.1 = p <;> simp [he]
  rw [hpred]
  cases hfind : List.find? (fun (e : position × patch) => decide (e.1 = q)) pm with
  | none => simp
  | some e =>
      have hkey : e.1 = q := by simpa using List.find?_some hfind
      by_cases hq : q = p
      · rw [if_pos hq]
        simp [hkey, hq]
      · rw [if_neg hq]
        simp [hkey, hq]

/-- An already-fixed entry is unchanged by the final flag-setting fold of
`fix_patches`. -/
lemma lookup_foldl_set_fixed_of_fixed (ps : List position) (pm : PatchIndex)
    (q : position) (pat : patch) (h : lookup_patch pm q = some pat)
    (hf : pat.fixed = true) :
    lookup_patch (ps.foldl set_fixed_at pm) q = some pat := by
  induction ps generalizing pm with
  | nil => exact h
  | cons p rest ih =>
      refine ih (set_fixed_at pm p) ?_
      rw [lookup_set_fixed]
      by_cases hq : q = p
      · rw [if_pos hq, h]
        have : ({ pat with fixed := true } : patch) = pat := by
          cases pat; simp_all
        simp [this]
      · rw [if_neg hq]; exact h

/-- After the flag-setting fold, every position in the folded list whose
entry exists holds a fixed patch. -/
lemma lookup_foldl_set_fixed_mem (ps : List position) (pm : PatchIndex)
    (q : position) (hmem : q ∈ ps) (hsome : (lookup_patch pm q).isSome = true) :
    ∃ pat, lookup_patch (ps.foldl set_fixed_at pm) q = some pat ∧
      pat.fixed = true := by
  induction ps generalizing pm with
  | nil => cases hmem
  | cons p rest ih =>
      rcases List.mem_cons.mp hmem with he | hin
      · obtain ⟨pat0, hpat0⟩ := Option.isSome_iff_exists.mp hsome
        have hset : lookup_patch (set_fixed_at pm p) q =
            some { pat0 with fixed := true } := by
          rw [lookup_set_fixed, if_pos he, hpat0]
          rfl
        exact ⟨{ pat0 with fixed := true },
          lookup_foldl_set_fixed_of_fixed rest _ q _ hset rfl, rfl⟩
      · rw [List.foldl_cons]
        refine ih (set_fixed_at pm p) hin ?_
        rw [lookup_set_fixed]
        by_cases hq : q = p
        · rw [if_pos hq]
          obtain ⟨pat0, hpat0⟩ := Option.isSome_iff_exists.mp hsome
          rw [hpat0]; rfl
        · rw [if_neg hq]; exact hsome

/-- After `get_or_make_patch` the targeted position exists. -/
lemma get_or_make_self_some (pm : PatchIndex) (p : position) :
    (lookup_patch (get_or_make_patch pm p).2 p).isSome = true := by
  unfold get_or_make_patch
  cases hc : lookup_patch pm p with
  | some pat => simp [hc]
  | none =>
      unfold lookup_patch at hc ⊢
      rw [List.find?_append]
      cases hfind : List.find? (fun e => decide (e.1 = p)) pm with
      | some e => rw [hfind] at hc; simp at hc
      | none => simp [List.find?]

/-- The function `get_or_make_patch` preserves existence of any entry. -/
lemma get_or_make_isSome_mono (pm : PatchIndex) (p q : position)
    (h : (lookup_patch pm q).isSome = true) :
    (lookup_patch (get_or_make_patch pm p).2 q).isSome = true := by
  obtain ⟨pat, hpat⟩ := Option.isSome_iff_exists.mp h
  rw [lookup_get_or_make pm p q pat hpat]
  rfl

/-- After the creation fold every folded position exists. -/
lemma foldl_get_or_make_some (ps : List position) (pm : PatchIndex)
    (p : position) (hp : p ∈ ps) :
    (lookup_patch (ps.foldl (fun pm q => (get_or_make_patch pm q).2) pm) p).isSome
      = true := by
  induction ps generalizing pm with
  | nil => cases hp
  | cons q rest ih =>
      rcases List.mem_cons.mp hp with he | hin
      · subst he
        rcases hsc : lookup_patch
            (rest.foldl (fun pm q => (get_or_make_patch pm q).2)
              (get_or_make_patch pm p).2) p with _ | pat
        · exfalso
          obtain ⟨pat0, hpat0⟩ := Option.isSome_iff_exists.mp
            (get_or_make_self_some pm p)
          rw [lookup_foldl_get_or_make rest _ p pat0 hpat0] at hsc
          cases hsc
        · simp [hsc]
      · exact ih _ hin

/-- The removal walk preserves existence of any entry. -/
lemma remove_fixed_loop_isSome_mono (l : List position) (pm : PatchIndex)
    (q : position) (h : (lookup_patch pm q).isSome = true) :
    (lookup_patch (remove_fixed_loop pm l).2 q).isSome = true := by
  obtain ⟨pat, hpat⟩ := Option.isSome_iff_exists.mp h
  rw [remove_fixed_loop_preserves l pm q pat hpat]
  rfl

/-- The function `fix_patches` never changes the entry of an already-fixed
patch: its position is dropped from the sampled set and only the flag-setting
fold touches it, idempotently. -/
lemma fix_patches_preserves_fixed (sample : SampleModel)
    (hloc : ∀ listed pm r q, q ∉ listed →
      lookup_patch (sample listed pm r).1 q = lookup_patch pm q)
    (m : map) (ps : List position) (q : position) (pat : patch)
    (h : lookup_patch m.patches q = some pat) (hf : pat.fixed = true) :
    lookup_patch (fix_patches sample m ps).patches q = some pat := by
  simp only [fix_patches]
  apply lookup_foldl_set_fixed_of_fixed _ _ _ pat _ hf
  rw [run_gibbs_local sample hloc _ _ _ _ q
    (remove_fixed_loop_not_mem _ _ q pat h hf)]
  exact remove_fixed_loop_preserves _ _ q pat h

/-- One public call never changes an already-fixed entry. -/
lemma run_op_preserves_fixed (sample : SampleModel)
    (hloc : ∀ listed pm r q, q ∉ listed →
      lookup_patch (sample listed pm r).1 q = lookup_patch pm q)
    (m : map) (op : MapOp) (q : position) (pat : patch)
    (h : lookup_patch m.patches q = some pat) (hf : pat.fixed = true) :
    lookup_patch (run_op sample m op).patches q = some pat := by
  cases op with
  | fixed_neighborhood_op w =>
      simp only [run_op, get_fixed_neighborhood]
      exact fix_patches_preserves_fixed sample hloc _ _ q pat
        (lookup_foldl_get_or_make _ _ q pat h) hf
  | neighborhood_op w => exact h
  | state_op bl tr => exact h
  | items_op bl tr => exact h

/-- No sequence of public calls ever changes an already-fixed entry. -/
lemma run_ops_preserves_fixed (sample : SampleModel)
    (hloc : ∀ listed pm r q, q ∉ listed →
      lookup_patch (sample listed pm r).1 q = lookup_patch pm q)
    (m : map) (ops : List MapOp) (q : position) (pat : patch)
    (h : lookup_patch m.patches q = some pat) (hf : pat.fixed = true) :
    lookup_patch (run_ops sample m ops).patches q = some pat := by
  induction ops generalizing m with
  | nil => exact h
  | cons op rest ih =>
      exact ih _ (run_op_preserves_fixed sample hloc m op q pat h hf)

/-- Every patch returned by `get_fixed_neighborhood` has `fixed = true` once
the call returns. -/
lemma get_fixed_neighborhood_all_fixed (sample : SampleModel)
    (hkeys : ∀ listed pm r q,
      (lookup_patch (sample listed pm r).1 q).isSome = (lookup_patch pm q).isSome)
    (m : map) (w : position) :
    ∀ pr ∈ (get_fixed_neighborhood sample m w).neighborhood, pr.fixed = true := by
  intro pr hmem
  simp only [get_fixed_neighborhood] at hmem
  rw [List.mem_map] at hmem
  obtain ⟨p, hp, rfl⟩ := hmem
  simp only [fix_patches]
  have hsome : (lookup_patch (run_gibbs sample
      (remove_fixed_loop
        ((get_neighborhood_positions w m.n).1.foldl
          (fun pm p => (get_or_make_patch pm p).2) m.patches)
        (build_work_set
          ((get_neighborhood_positions w m.n).1.foldl
            (fun pm p => (get_or_make_patch pm p).2) m.patches)
          (get_neighborhood_positions w m.n).1 [])).1
      m.gibbs_iterations
      (remove_fixed_loop
        ((get_neighborhood_positions w m.n).1.foldl
          (fun pm p => (get_or_make_patch pm p).2) m.patches)
        (build_work_set
          ((get_neighborhood_positions w m.n).1.foldl
            (fun pm p => (get_or_make_patch pm p).2) m.patches)
          (get_neighborhood_positions w m.n).1 [])).2
      m.rng).1 p).isSome = true := by
    rw [run_gibbs_keys sample hkeys]
    exact remove_fixed_loop_isSome_mono _ _ p
      (foldl_get_or_make_some _ _ p hp)
  obtain ⟨pat, hpat, hfixed⟩ := lookup_foldl_set_fixed_mem _ _ p hp hsome
  rw [hpat]
  exact hfixed

/-- C2: once `get_fixed_neighborhood` returns, each of the four returned
patches has `fixed = true`; and for every patch whose fixed flag is true, no
subsequent sequence of public calls (including later `get_fixed_neighborhood`
calls and the `fix_patches` they run) ever changes that patch's stored entry
(in particular its items).  The Gibbs field (not under src/) is any sampler
that, per the spec, touches only the listed positions and preserves key
presence. -/
theorem fixed_patches_immutable (sample : SampleModel)
    (hloc : ∀ listed pm r q, q ∉ listed →
      lookup_patch (sample listed pm r).1 q = lookup_patch pm q)
    (hkeys : ∀ listed pm r q,
      (lookup_patch (sample listed pm r).1 q).isSome = (lookup_patch pm q).isSome)
    (m : map) (w : position) (ops : List MapOp) (q : position) (pat : patch)
    (hq : lookup_patch m.patches q = some pat) (hf : pat.fixed = true) :
    (∀ pr ∈ (get_fixed_neighborhood sample m w).neighborhood, pr.fixed = true) ∧
    lookup_patch (run_ops sample m ops).patches q = some pat :=
  ⟨get_fixed_neighborhood_all_fixed sample hkeys m w,
   run_ops_preserves_fixed sample hloc m ops q pat hq hf⟩

/-- A sampler that changes nothing: the smallest legitimate Gibbs field
under the spec's interface, used to instantiate witnesses. -/
def id_sample : SampleModel := fun _ pm r => (pm, r)

/-- Witness for C2: the identity sampler satisfies both sampler hypotheses;
on a map holding one fixed patch at `(5, 5)`, a `get_fixed_neighborhood` call
at `(0, 0)` returns all-fixed patches, and a subsequent public call sequence
leaves the fixed entry at `(5, 5)` unchanged. -/
theorem fixed_patches_immutable_witness :
    (∀ listed pm r q, q ∉ listed →
      lookup_patch (id_sample listed pm r).1 q = lookup_patch pm q) ∧
    (∀ listed pm r q,
      (lookup_patch (id_sample listed pm r).1 q).isSome = (lookup_patch pm q).isSome) ∧
    lookup_patch (map.mk [(⟨5, 5⟩, ⟨[], true, 0⟩)] 8 1 1).patches ⟨5, 5⟩
      = some ⟨[], true, 0⟩ ∧
    (patch.mk [] true 0).fixed = true ∧
    ((∀ pr ∈ (get_fixed_neighborhood id_sample
        (map.mk [(⟨5, 5⟩, ⟨[], true, 0⟩)] 8 1 1) ⟨0, 0⟩).neighborhood,
        pr.fixed = true) ∧
     lookup_patch (run_ops id_sample (map.mk [(⟨5, 5⟩, ⟨[], true, 0⟩)] 8 1 1)
        [MapOp.fixed_neighborhood_op ⟨9, 9⟩]).patches ⟨5, 5⟩
      = some ⟨[], true, 0⟩) :=
  ⟨fun _ _ _ _ _ => rfl, fun _ _ _ _ => rfl, by decide, rfl,
   fixed_patches_immutable id_sample (fun _ _ _ _ _ => rfl) (fun _ _ _ _ => rfl)
     (map.mk [(⟨5, 5⟩, ⟨[], true, 0⟩)] 8 1 1) ⟨0, 0⟩
     [MapOp.fixed_neighborhood_op ⟨9, 9⟩] ⟨5, 5⟩ ⟨[], true, 0⟩ (by decide) rfl⟩

end Nel
